import Mathlib

set_option maxRecDepth 20000

/-!
Verification of the core algorithms of the finger-region recognizer
(`abc_finger_region_recognizer.py`): minutiae-weight scoring by crossing
number, best-region selection under a validity mask, diagonal ridge
counting, and the annotation step.  Images are embedded as lists of pixel
rows; NumPy slices become `drop`/`take` (which clip exactly as NumPy
slicing does).  The float weight image only ever holds `0.0`, `1.0` or
`2.0` and their sums over at most `S*S` cells: every such value and sum is
an integer represented exactly by an IEEE double, and every float
comparison the selector performs is therefore exact integer comparison, so
the weight image is embedded over `ℕ`; `float("inf")` becomes the `none`
state of the running minimum (any finite weight is ≤ infinity).
-/

/-- A raster image: a list of pixel rows. -/
abbrev Mat (α : Type) : Type := List (List α)

/-- In-bounds pixel lookup `m[i][j]`; 0 outside (all uses stay in bounds). -/
def atN (m : Mat ℕ) (i j : ℕ) : ℕ := (m.getD i []).getD j 0

/-- Pixel lookup at integer offsets, as used by the neighborhood kernels;
all in-repo call sites keep both indices nonnegative and in bounds. -/
def atI (m : Mat ℕ) (i j : ℤ) : ℕ := atN m i.toNat j.toNat

/-- `(image == 0).astype(np.int8)` from `__calculate_minutiae_weights`:
ridge pixels (stored intensity 0) become 1, everything else 0. -/
def binarize (image : Mat ℕ) : Mat ℕ :=
  image.map (fun row => row.map (fun v => if v = 0 then 1 else 0))

/-- The classification returned by `__detect_minutiae` (the source returns
the strings "termination" / "bifurcation" / "none"). -/
inductive Minutiae
  | termination
  | bifurcation
  | nothing
deriving DecidableEq

/-- The ring kernel of `__detect_minutiae`: clockwise offsets `(k, l)` over
the 8-neighborhood, first sample repeated at the end (9 samples). -/
def minutiaeKernel : List (ℤ × ℤ) :=
  [(-1, -1), (-1, 0), (-1, 1), (0, 1), (1, 1), (1, 0), (1, -1), (0, -1), (-1, -1)]

/-- The `values` list of `__detect_minutiae`: for each `(k, l)` in the
kernel, sample `image[row + l][col + k]`. -/
def ringValues (image : Mat ℕ) (row col : ℕ) : List ℕ :=
  minutiaeKernel.map (fun kl => atI image ((row : ℤ) + kl.2) ((col : ℤ) + kl.1))

/-- `sum(abs(values[k] - values[k + 1]) for k in range(len(values) - 1))`. -/
def sumAbsDiff : List ℕ → ℕ
  | a :: b :: rest => ((a : ℤ) - (b : ℤ)).natAbs + sumAbsDiff (b :: rest)
  | _ => 0

/-- The crossing number of `__detect_minutiae`: sum of absolute differences
between consecutive ring samples, integer-divided by 2. -/
def crossingNumber (image : Mat ℕ) (row col : ℕ) : ℕ :=
  sumAbsDiff (ringValues image row col) / 2

/-- `__detect_minutiae` on the binarized image: a ridge pixel (value 1)
with crossing number 1 is a termination, with crossing number 3 a
bifurcation; anything else is "none". -/
def detectMinutiae (image : Mat ℕ) (row col : ℕ) : Minutiae :=
  if atN image row col = 1 then
    if crossingNumber image row col = 1 then .termination
    else if crossingNumber image row col = 3 then .bifurcation
    else .nothing
  else .nothing

/-- The weight contributed at one pixel by `__calculate_minutiae_weights`:
`+2.0` for a termination, `+1.0` for a bifurcation, else `0.0`. -/
def minutiaeWeightAt (bin : Mat ℕ) (row col : ℕ) : ℕ :=
  match detectMinutiae bin row col with
  | .termination => 2
  | .bifurcation => 1
  | .nothing => 0

/-- `__calculate_minutiae_weights`: a same-shape weight image, zero outside
the interior loop ranges `range(1, shape[0]-1)` x `range(1, shape[1]-1)`
(each cell is written at most once, so the accumulation is pointwise). -/
def calculateMinutiaeWeights (image : Mat ℕ) : Mat ℕ :=
  (List.range image.length).map (fun row =>
    (List.range (image.headD []).length).map (fun col =>
      if 1 ≤ row ∧ row + 1 < image.length ∧ 1 ≤ col ∧
          col + 1 < (image.headD []).length then
        minutiaeWeightAt (binarize image) row col
      else 0))

/-- One step of the scan in `__count_diagonal_lines`: the two sequential
`if`s of the loop body (count a ridge cell seen while "on white", then
reset to "on white" on a 255 cell). State is `(is_white, counter)`. -/
def diagStep (s : Bool × ℕ) (cell : ℕ) : Bool × ℕ :=
  let s1 := if cell = 0 ∧ s.1 = true then (false, s.2 + 1) else s
  if cell = 255 then (true, s1.2) else s1

/-- `__count_diagonal_lines`: hysteresis scan over `image[i][i]`,
`i` in `range(image.shape[0])`, starting "on white". -/
def countDiagonalLines (image : Mat ℕ) : ℕ :=
  ((List.range image.length).foldl (fun s i => diagStep s (atN image i i)) (true, 0)).2

/-- The 3x3 all-ones structuring element of `cv2.erode` in `__count_lines`:
each output pixel is the minimum over its in-bounds 3x3 neighborhood
(the default border value of erosion is +inf, so out-of-bounds samples
never win the minimum). -/
def erode3 (image : Mat ℕ) : Mat ℕ :=
  (List.range image.length).map (fun i =>
    (List.range (image.headD []).length).map (fun j =>
      let vals := [(-1, -1), (-1, 0), (-1, 1), (0, -1), (0, 0), (0, 1),
          (1, -1), (1, 0), (1, 1)].filterMap (fun d : ℤ × ℤ =>
        let i2 := (i : ℤ) + d.1
        let j2 := (j : ℤ) + d.2
        if 0 ≤ i2 ∧ i2 < (image.length : ℤ) ∧ 0 ≤ j2 ∧
            j2 < ((image.headD []).length : ℤ) then some (atI image i2 j2)
        else none)
      match vals with
      | [] => 0
      | v :: vs => vs.foldl Nat.min v))

/-- `cv2.threshold(eroded, 127, 255, cv2.THRESH_BINARY)[1]`:
255 where the pixel exceeds 127, else 0. -/
def threshold127 (image : Mat ℕ) : Mat ℕ :=
  image.map (fun row => row.map (fun v => if 127 < v then 255 else 0))

/-- `np.fliplr`: mirror every row. -/
def fliplr (image : Mat ℕ) : Mat ℕ := image.map List.reverse

/-- The diagonal kind reported by `__count_lines` (the source uses the
strings "main_diagonal" / "secondary_diagonal"). -/
inductive LineType
  | main_diagonal
  | secondary_diagonal
deriving DecidableEq

/-- `__count_lines`: erode, re-binarize, count crossings on the main
diagonal and on the main diagonal of the mirrored image, and report the
secondary diagonal whenever main ≤ secondary. -/
def countLines (image : Mat ℕ) : ℕ × LineType :=
  let binaryImage := threshold127 (erode3 image)
  let mainDiagonal := countDiagonalLines binaryImage
  let secondaryDiagonal := countDiagonalLines (fliplr binaryImage)
  if mainDiagonal ≤ secondaryDiagonal then (secondaryDiagonal, .secondary_diagonal)
  else (mainDiagonal, .main_diagonal)

/-- NumPy 2-D slice `m[r0:r1, c0:c1]` (slicing clips at the array edges,
exactly as `drop`/`take` do). -/
def slice2 {α : Type} (m : Mat α) (r0 r1 c0 c1 : ℕ) : Mat α :=
  ((m.drop r0).take (r1 - r0)).map (fun row => (row.drop c0).take (c1 - c0))

/-- `np.sum(m[r0:r1, c0:c1])` for an integer mask. -/
def sliceSumN (m : Mat ℕ) (r0 r1 c0 c1 : ℕ) : ℕ :=
  ((slice2 m r0 r1 c0 c1).map List.sum).sum

/-- The candidate `(col, row)` pairs of `__get_best_region` in scan order:
outer loop `col in range(1, cols - window)`, inner loop
`row in range(1, rows - window)`. -/
def scanCandidates (rows cols window : ℕ) : List (ℕ × ℕ) :=
  (List.range' 1 (cols - window - 1)).flatMap (fun c =>
    (List.range' 1 (rows - window - 1)).map (fun r => (c, r)))

/-- The `best_region` list built by `__get_best_region` for candidate
`(c, r)`. -/
def mkRegion (blockSize shapeBlock c r : ℕ) : List ℕ :=
  [c * blockSize, c * blockSize + shapeBlock, r * blockSize, r * blockSize + shapeBlock]

/-- `np.sum(mask[col*B : col*B+S, row*B : row*B+S])`, the full-validity
check quantity of `__get_best_region`. -/
def windowMaskSum (mask : Mat ℕ) (blockSize shapeBlock : ℕ) (p : ℕ × ℕ) : ℕ :=
  sliceSumN mask (p.1 * blockSize) (p.1 * blockSize + shapeBlock)
    (p.2 * blockSize) (p.2 * blockSize + shapeBlock)

/-- `np.sum(minutiae_weights_image[col*B : col*B+S, row*B : row*B+S])`. -/
def windowWeight (w : Mat ℕ) (blockSize shapeBlock : ℕ) (p : ℕ × ℕ) : ℕ :=
  sliceSumN w (p.1 * blockSize) (p.1 * blockSize + shapeBlock)
    (p.2 * blockSize) (p.2 * blockSize + shapeBlock)

/-- One iteration of the `__get_best_region` loop body.  The state is the
current `(best_region, block_minutiaes_weight)`; `none` is the initial
`(None, float("inf"))` (any finite weight compares ≤ infinity, so the
first accepted window always replaces `none`). -/
def bestStep (mask : Mat ℕ) (w : Mat ℕ) (blockSize shapeBlock : ℕ)
    (s : Option (List ℕ × ℕ)) (p : ℕ × ℕ) : Option (List ℕ × ℕ) :=
  if windowMaskSum mask blockSize shapeBlock p = shapeBlock * shapeBlock then
    match s with
    | none => some (mkRegion blockSize shapeBlock p.1 p.2, windowWeight w blockSize shapeBlock p)
    | some (best, bw) =>
      if windowWeight w blockSize shapeBlock p ≤ bw then
        some (mkRegion blockSize shapeBlock p.1 p.2, windowWeight w blockSize shapeBlock p)
      else some (best, bw)
  else s

/-- `__get_best_region`: scan the candidate grid, keep the last accepted
window whose weight is ≤ the running minimum, and return its region (or
`None` when no window was accepted; a set `best_region` is a non-empty
list, hence always truthy). -/
def getBestRegion (thinImage : Mat ℕ) (minutiaeWeightsImage : Mat ℕ)
    (blockSize : ℕ) (mask : Mat ℕ) : Option (List ℕ) :=
  let rows := thinImage.length
  let cols := (thinImage.headD []).length
  let shapeBlock := blockSize * 8
  let window := shapeBlock / blockSize - 1
  ((scanCandidates rows cols window).foldl
    (bestStep mask minutiaeWeightsImage blockSize shapeBlock) none).map Prod.fst

/-- The drawing primitives invoked by the annotator, recorded as data:
the spec treats cv2's rendering as a black-box 2-D canvas API. -/
inductive DrawOp
  | line (p1 p2 : ℤ × ℤ) (color : ℕ × ℕ × ℕ) (thickness : ℕ)
  | putText (text : String) (org : ℤ × ℤ) (color : ℕ × ℕ × ℕ) (thickness : ℕ)
  | rectangle (p1 p2 : ℤ × ℤ) (color : ℕ × ℕ × ℕ) (thickness : ℕ)
deriving DecidableEq

/-- `cv2.cvtColor(img, cv2.COLOR_GRAY2RGB)`: each intensity `v` becomes
the 3-channel pixel `(v, v, v)`. -/
def cvtGrayToRGB (image : Mat ℕ) : Mat (ℕ × ℕ × ℕ) :=
  image.map (fun row => row.map (fun v => (v, v, v)))

/-- The annotator's result: the converted base canvas plus the drawing
calls issued on it, in order. -/
structure Annotated where
  base : Mat (ℕ × ℕ × ℕ)
  ops : List DrawOp
deriving DecidableEq

/-- `__draw_diagonal`: one red line from `(start_j, start_i)` to
`(end_j, end_i)`, then the count and the literal "ridges" as two text
calls at `(text_y, text_x - block_size)` and `(text_y, text_x)`. -/
def drawDiagonal (startI startJ endI endJ lineCount blockSize textY textX : ℕ)
    (color : ℕ × ℕ × ℕ) : List DrawOp :=
  [.line ((startJ : ℤ), (startI : ℤ)) ((endJ : ℤ), (endI : ℤ)) (0, 0, 255) 1,
   .putText (" " ++ toString lineCount) ((textY : ℤ), (textX : ℤ) - (blockSize : ℤ)) color 1,
   .putText "ridges" ((textY : ℤ), (textX : ℤ)) color 1]

/-- `__draw_ridges_count_on_region`: convert a copy of the input to
3 channels; with no region return it untouched; otherwise count ridges on
the cropped skeleton, draw the chosen diagonal with its count, and outline
the region (region bounds come from the selector, so `r1 = r0 + S` and
`r3 = r2 + S`). -/
def drawRidgesCountOnRegion (region : Option (List ℕ)) (inputImage thinImage : Mat ℕ)
    (blockSize : ℕ) : Annotated :=
  let outputImage := cvtGrayToRGB inputImage
  match region with
  | none => ⟨outputImage, []⟩
  | some reg =>
    let r0 := reg.getD 0 0
    let r1 := reg.getD 1 0
    let r2 := reg.getD 2 0
    let r3 := reg.getD 3 0
    let lc := countLines (slice2 thinImage r0 r1 r2 r3)
    let textY := (r3 - r2) / 2 + r2
    let ops :=
      match lc.2 with
      | .main_diagonal =>
        drawDiagonal r0 r2 r1 r3 lc.1 blockSize textY ((r1 - r0) / 3 + r0) (0, 255, 255)
      | .secondary_diagonal =>
        drawDiagonal r0 r3 r1 r2 lc.1 blockSize textY (2 * (r1 - r0) / 3 + r0) (0, 255, 255)
    ⟨outputImage,
      ops ++ [.rectangle ((r2 : ℤ), (r0 : ℤ)) ((r3 : ℤ), (r1 : ℤ)) (0, 0, 255) 1]⟩

/-! ## Test fixtures: constant images used by witnesses and counterexamples -/

/-- An all-background skeleton (every pixel 255). -/
def bgImage (r c : ℕ) : Mat ℕ := List.replicate r (List.replicate c 255)

/-- A full-validity mask (every pixel 1). -/
def fullMask (r c : ℕ) : Mat ℕ := List.replicate r (List.replicate c 1)

/-- An all-zero weight image. -/
def zeroWeights (r c : ℕ) : Mat ℕ := List.replicate r (List.replicate c 0)

/-! ## Generic lookup lemmas -/

lemma headD_length_of_uniform (image : Mat ℕ) (cols : ℕ) (hne : image ≠ [])
    (hcols : ∀ r ∈ image, r.length = cols) : (image.headD []).length = cols := by
  cases image with
  | nil => exact absurd rfl hne
  | cons a l => exact hcols a (List.mem_cons_self a l)

lemma atN_map_range (rows cols : ℕ) (f : ℕ → ℕ → ℕ) (i j : ℕ)
    (hi : i < rows) (hj : j < cols) :
    atN ((List.range rows).map (fun r => (List.range cols).map (fun c => f r c))) i j
      = f i j := by
  have h1 : ((List.range rows).map
      (fun r => (List.range cols).map (fun c => f r c))).getD i []
      = (List.range cols).map (fun c => f i c) := by
    rw [List.getD_eq_getElem _ _ (by simpa using hi)]
    simp
  have h2 : ((List.range cols).map (fun c => f i c)).getD j 0 = f i j := by
    rw [List.getD_eq_getElem _ _ (by simpa using hj)]
    simp
  unfold atN
  rw [h1, h2]

lemma atN_binarize (image : Mat ℕ) (i j : ℕ) (hi : i < image.length)
    (hj : j < (image.getD i []).length) :
    atN (binarize image) i j = if atN image i j = 0 then 1 else 0 := by
  have h2 : image.getD i [] = image[i] := List.getD_eq_getElem _ _ hi
  have hj' : j < image[i].length := by rwa [h2] at hj
  have h1 : (binarize image).getD i []
      = image[i].map (fun v => if v = 0 then 1 else 0) := by
    unfold binarize
    rw [List.getD_eq_getElem _ _ (by simpa using hi)]
    simp
  unfold atN
  rw [h1, h2, List.getD_eq_getElem _ _ (by simpa using hj'), List.getElem_map,
    List.getD_eq_getElem _ _ hj']

/-! ## Claim C1: MinutiaeScorer classification -/

lemma atN_calculateMinutiaeWeights (image : Mat ℕ) (i j : ℕ)
    (hi : i < image.length) (hj : j < (image.headD []).length) :
    atN (calculateMinutiaeWeights image) i j =
      if 1 ≤ i ∧ i + 1 < image.length ∧ 1 ≤ j ∧ j + 1 < (image.headD []).length then
        minutiaeWeightAt (binarize image) i j
      else 0 := by
  unfold calculateMinutiaeWeights
  exact atN_map_range image.length (image.headD []).length _ i j hi hj

lemma calculateMinutiaeWeights_length (image : Mat ℕ) :
    (calculateMinutiaeWeights image).length = image.length := by
  simp [calculateMinutiaeWeights]

lemma calculateMinutiaeWeights_rowLength (image : Mat ℕ) :
    ∀ r ∈ calculateMinutiaeWeights image, r.length = (image.headD []).length := by
  intro r hr
  unfold calculateMinutiaeWeights at hr
  obtain ⟨row, _, rfl⟩ := List.mem_map.1 hr
  simp

/-- Claim C1: for every binary skeleton of shape at least 3x3 the scorer
produces a same-shape weight image in which every interior ridge pixel
(value 0, i.e. binarized 1) with crossing number 1 holds weight 2, with
crossing number 3 holds weight 1, and every other cell — interior ridge
pixels with any other crossing number, non-ridge pixels, and the one-pixel
border — holds 0. -/
theorem claim_C1 (image : Mat ℕ) (rows cols : ℕ)
    (hrows : image.length = rows) (hcols : ∀ r ∈ image, r.length = cols)
    (h3r : 3 ≤ rows) (h3c : 3 ≤ cols) :
    ((calculateMinutiaeWeights image).length = rows ∧
      ∀ r ∈ calculateMinutiaeWeights image, r.length = cols) ∧
    (∀ row col, 1 ≤ row → row + 1 < rows → 1 ≤ col → col + 1 < cols →
      atN image row col = 0 →
      ((crossingNumber (binarize image) row col = 1 →
        atN (calculateMinutiaeWeights image) row col = 2) ∧
       (crossingNumber (binarize image) row col = 3 →
        atN (calculateMinutiaeWeights image) row col = 1) ∧
       (crossingNumber (binarize image) row col ≠ 1 →
        crossingNumber (binarize image) row col ≠ 3 →
        atN (calculateMinutiaeWeights image) row col = 0))) ∧
    (∀ row col, row < rows → col < cols →
      ¬(1 ≤ row ∧ row + 1 < rows ∧ 1 ≤ col ∧ col + 1 < cols ∧
          atN image row col = 0) →
      atN (calculateMinutiaeWeights image) row col = 0) := by
  subst hrows
  have hne : image ≠ [] := by
    intro h
    rw [h] at h3r
    simp at h3r
  have hhead : (image.headD []).length = cols :=
    headD_length_of_uniform image cols hne hcols
  subst hhead
  have hrowlen : ∀ i (hi : i < image.length),
      (image.getD i []).length = (image.headD []).length := by
    intro i hi
    rw [List.getD_eq_getElem _ _ hi]
    exact hcols _ (List.getElem_mem hi)
  refine ⟨⟨calculateMinutiaeWeights_length image,
    calculateMinutiaeWeights_rowLength image⟩, ?_, ?_⟩
  · intro row col h1 h2 h3 h4 hridge
    have hi : row < image.length := by omega
    have hj : col < (image.headD []).length := by omega
    have hbin : atN (binarize image) row col = 1 := by
      rw [atN_binarize image row col hi (by rw [hrowlen row hi]; exact hj), hridge]
      simp
    rw [atN_calculateMinutiaeWeights image row col hi hj, if_pos ⟨h1, h2, h3, h4⟩]
    refine ⟨fun hcn => ?_, fun hcn => ?_, fun hn1 hn3 => ?_⟩
    · simp [minutiaeWeightAt, detectMinutiae, hbin, hcn]
    · simp [minutiaeWeightAt, detectMinutiae, hbin, hcn]
    · simp [minutiaeWeightAt, detectMinutiae, hbin, hn1, hn3]
  · intro row col hr hc hneg
    rw [atN_calculateMinutiaeWeights image row col hr hc]
    by_cases hint : 1 ≤ row ∧ row + 1 < image.length ∧ 1 ≤ col ∧
        col + 1 < (image.headD []).length
    · rw [if_pos hint]
      have hridge : atN image row col ≠ 0 := fun h0 =>
        hneg ⟨hint.1, hint.2.1, hint.2.2.1, hint.2.2.2, h0⟩
      have hbin : atN (binarize image) row col = 0 := by
        rw [atN_binarize image row col hr (by rw [hrowlen row hr]; exact hc),
          if_neg hridge]
      simp [minutiaeWeightAt, detectMinutiae, hbin]
    · rw [if_neg hint]

/-- A 3x3 skeleton whose center ridge pixel has exactly one ridge
neighbor: a termination (crossing number 1). -/
def termImage : Mat ℕ := [[255, 255, 255], [255, 0, 0], [255, 255, 255]]

theorem claim_C1_witness :
    ((3:ℕ) ≤ 3) ∧ crossingNumber (binarize termImage) 1 1 = 1 ∧
      atN termImage 1 1 = 0 ∧ atN (calculateMinutiaeWeights termImage) 1 1 = 2 :=
  ⟨by decide, by decide, by decide,
    ((claim_C1 termImage 3 3 rfl (by decide) (by decide) (by decide)).2.1 1 1
      (by decide) (by decide) (by decide) (by decide) (by decide)).1 (by decide)⟩

/-! ## Claim C4: RidgeCounter per-diagonal counting rule -/

lemma diagStep_white_zero (c : ℕ) : diagStep (true, c) 0 = (false, c + 1) := by
  simp [diagStep]

lemma diagStep_notwhite_zero (c : ℕ) : diagStep (false, c) 0 = (false, c) := by
  simp [diagStep]

lemma diagStep_cell255 (b : Bool) (c : ℕ) : diagStep (b, c) 255 = (true, c) := by
  simp [diagStep]

lemma foldl_diagStep_const_zero (f : ℕ → ℕ) (l : List ℕ) (c : ℕ)
    (h : ∀ i ∈ l, f i = 0) :
    l.foldl (fun s i => diagStep s (f i)) (false, c) = (false, c) := by
  induction l with
  | nil => rfl
  | cons a l ih =>
    simp only [List.foldl_cons]
    rw [h a (List.mem_cons_self a l), diagStep_notwhite_zero]
    exact ih (fun i hi => h i (List.mem_cons_of_mem a hi))

lemma foldl_diagStep_const_255 (f : ℕ → ℕ) (l : List ℕ) (c : ℕ)
    (h : ∀ i ∈ l, f i = 255) :
    l.foldl (fun s i => diagStep s (f i)) (true, c) = (true, c) := by
  induction l with
  | nil => rfl
  | cons a l ih =>
    simp only [List.foldl_cons]
    rw [h a (List.mem_cons_self a l), diagStep_cell255]
    exact ih (fun i hi => h i (List.mem_cons_of_mem a hi))

/-- Claim C4 counterexample: on a 3x3 image whose diagonal is entirely
ridge (all cells 0) — so no background cell precedes any diagonal cell —
the claim demands count 0, but `__count_diagonal_lines` yields 1: the scan
state starts "on white", so the very first ridge cell is counted. -/
theorem claim_C4_counterexample :
    (∀ i < ([[0, 0, 0], [0, 0, 0], [0, 0, 0]] : Mat ℕ).length,
      atN [[0, 0, 0], [0, 0, 0], [0, 0, 0]] i i = 0) ∧
    countDiagonalLines [[0, 0, 0], [0, 0, 0], [0, 0, 0]] = 1 := by decide

/-- Claim C4 as amended: a diagonal that is entirely ridge (all cells 0)
of positive length always yields count 1 — the scan state starts "on
white", so the first ridge cell is counted even with no preceding
background cell; a diagonal that is entirely background (all cells 255)
yields count 0. -/
theorem claim_C4 :
    (∀ image : Mat ℕ, 1 ≤ image.length →
      (∀ i < image.length, atN image i i = 0) →
      countDiagonalLines image = 1) ∧
    (∀ image : Mat ℕ,
      (∀ i < image.length, atN image i i = 255) →
      countDiagonalLines image = 0) := by
  constructor
  · intro image hlen h
    obtain ⟨m, hm⟩ : ∃ m, image.length = m + 1 := ⟨image.length - 1, by omega⟩
    unfold countDiagonalLines
    rw [hm, List.range_succ_eq_map]
    simp only [List.foldl_cons]
    rw [h 0 (by omega), diagStep_white_zero, List.foldl_map,
      foldl_diagStep_const_zero (fun i => atN image (i + 1) (i + 1)) _ _
        (fun i hi => h (i + 1) (by have := List.mem_range.1 hi; omega))]
  · intro image h
    unfold countDiagonalLines
    rw [foldl_diagStep_const_255 (fun i => atN image i i) _ _
      (fun i hi => h i (List.mem_range.1 hi))]

theorem claim_C4_witness :
    countDiagonalLines [[0, 0], [0, 0]] = 1 ∧
    countDiagonalLines [[255, 255], [255, 255]] = 0 :=
  ⟨claim_C4.1 [[0, 0], [0, 0]] (by decide) (by decide),
   claim_C4.2 [[255, 255], [255, 255]] (by decide)⟩

/-! ## Claim C7: RidgeCounter diagonal tie-break -/

/-- Claim C7: on the eroded-and-rebinarized crop, `__count_lines` reports
`(secondary count, secondary)` whenever the main-diagonal count is ≤ the
secondary-diagonal count, and `(main count, main)` otherwise; equal counts
always resolve to the secondary diagonal. -/
theorem claim_C7 (thinImage : Mat ℕ) (r0 r1 c0 c1 : ℕ) :
    (countLines (slice2 thinImage r0 r1 c0 c1) =
      if countDiagonalLines (threshold127 (erode3 (slice2 thinImage r0 r1 c0 c1)))
          ≤ countDiagonalLines (fliplr (threshold127 (erode3 (slice2 thinImage r0 r1 c0 c1)))) then
        (countDiagonalLines (fliplr (threshold127 (erode3 (slice2 thinImage r0 r1 c0 c1)))),
          LineType.secondary_diagonal)
      else
        (countDiagonalLines (threshold127 (erode3 (slice2 thinImage r0 r1 c0 c1))),
          LineType.main_diagonal)) ∧
    (countDiagonalLines (threshold127 (erode3 (slice2 thinImage r0 r1 c0 c1)))
        = countDiagonalLines (fliplr (threshold127 (erode3 (slice2 thinImage r0 r1 c0 c1)))) →
      countLines (slice2 thinImage r0 r1 c0 c1) =
        (countDiagonalLines (fliplr (threshold127 (erode3 (slice2 thinImage r0 r1 c0 c1)))),
          LineType.secondary_diagonal)) := by
  constructor
  · rfl
  · intro h
    simp only [countLines, h, le_refl, if_true]

theorem claim_C7_witness :
    countDiagonalLines (threshold127 (erode3 (slice2 (bgImage 8 8) 0 8 0 8)))
      = countDiagonalLines (fliplr (threshold127 (erode3 (slice2 (bgImage 8 8) 0 8 0 8)))) ∧
    countLines (slice2 (bgImage 8 8) 0 8 0 8) = (0, LineType.secondary_diagonal) := by
  refine ⟨by decide, ?_⟩
  have h := (claim_C7 (bgImage 8 8) 0 8 0 8).2 (by decide)
  rw [h]
  decide

/-! ## Claim C8: RegionAnnotator copy semantics and no-region fallback -/

/-- Claim C8: the annotator returns a 3-channel conversion of the (copied,
hence unmodified) original grayscale image in every case — each base pixel
is `(v, v, v)` for the original intensity `v` — and when the selector
returned no region the result is exactly that conversion with no drawing
operation at all (no rectangle, no line, no text). -/
theorem claim_C8 (inputImage thinImage : Mat ℕ) (blockSize : ℕ) :
    (drawRidgesCountOnRegion none inputImage thinImage blockSize
      = ⟨cvtGrayToRGB inputImage, []⟩) ∧
    (∀ region, (drawRidgesCountOnRegion region inputImage thinImage blockSize).base
      = cvtGrayToRGB inputImage) ∧
    (∀ i j, i < inputImage.length → j < (inputImage.getD i []).length →
      ((cvtGrayToRGB inputImage).getD i []).getD j (0, 0, 0)
        = (atN inputImage i j, atN inputImage i j, atN inputImage i j)) := by
  refine ⟨rfl, ?_, ?_⟩
  · intro region
    cases region with
    | none => rfl
    | some reg => rfl
  · intro i j hi hj
    have h2 : inputImage.getD i [] = inputImage[i] := List.getD_eq_getElem _ _ hi
    have hj' : j < inputImage[i].length := by rwa [h2] at hj
    have h1 : (cvtGrayToRGB inputImage).getD i []
        = inputImage[i].map (fun v => (v, v, v)) := by
      unfold cvtGrayToRGB
      rw [List.getD_eq_getElem _ _ (by simpa using hi)]
      simp
    rw [h1, List.getD_eq_getElem _ _ (by simpa using hj'), List.getElem_map]
    unfold atN
    rw [h2, List.getD_eq_getElem _ _ hj']

theorem claim_C8_witness :
    (drawRidgesCountOnRegion none [[5]] [[5]] 15 = ⟨cvtGrayToRGB [[5]], []⟩) ∧
    ((cvtGrayToRGB [[5]]).getD 0 []).getD 0 (0, 0, 0)
      = (atN [[5]] 0 0, atN [[5]] 0 0, atN [[5]] 0 0) :=
  ⟨(claim_C8 [[5]] [[5]] 15).1,
   (claim_C8 [[5]] [[5]] 15).2.2 0 0 (by decide) (by decide)⟩

/-! ## RegionSelector: fold invariants for `__get_best_region` -/

lemma getBestRegion_eq_foldl (thinImage w mask : Mat ℕ) (B : ℕ) :
    getBestRegion thinImage w B mask =
      ((scanCandidates thinImage.length (thinImage.headD []).length (B * 8 / B - 1)).foldl
        (bestStep mask w B (B * 8)) none).map Prod.fst := rfl

lemma mem_scanCandidates {rows cols window : ℕ} {p : ℕ × ℕ}
    (h : p ∈ scanCandidates rows cols window) :
    1 ≤ p.1 ∧ p.1 < 1 + (cols - window - 1) ∧
    1 ≤ p.2 ∧ p.2 < 1 + (rows - window - 1) := by
  unfold scanCandidates at h
  obtain ⟨c, hc, h2⟩ := List.mem_flatMap.1 h
  obtain ⟨r, hr, rfl⟩ := List.mem_map.1 h2
  have hc' := List.mem_range'_1.1 hc
  have hr' := List.mem_range'_1.1 hr
  exact ⟨hc'.1, hc'.2, hr'.1, hr'.2⟩

lemma bestStep_preserve (mask w : Mat ℕ) (B S : ℕ) (L : List (ℕ × ℕ))
    (a : ℕ × ℕ) (haL : a ∈ L) (s : Option (List ℕ × ℕ))
    (hs : s = none ∨ ∃ c r, (c, r) ∈ L ∧ windowMaskSum mask B S (c, r) = S * S ∧
      s = some (mkRegion B S c r, windowWeight w B S (c, r))) :
    bestStep mask w B S s a = none ∨
      ∃ c r, (c, r) ∈ L ∧ windowMaskSum mask B S (c, r) = S * S ∧
        bestStep mask w B S s a
          = some (mkRegion B S c r, windowWeight w B S (c, r)) := by
  unfold bestStep
  by_cases hacc : windowMaskSum mask B S a = S * S
  · rw [if_pos hacc]
    cases s with
    | none => exact Or.inr ⟨a.1, a.2, haL, hacc, rfl⟩
    | some pr =>
      obtain ⟨best, bw⟩ := pr
      rcases hs with hnone | ⟨c, r, hcr, hacc', hpr⟩
      · exact absurd hnone (by simp)
      · dsimp only
        by_cases hle : windowWeight w B S a ≤ bw
        · rw [if_pos hle]
          exact Or.inr ⟨a.1, a.2, haL, hacc, rfl⟩
        · rw [if_neg hle]
          exact Or.inr ⟨c, r, hcr, hacc', hpr⟩
  · rw [if_neg hacc]
    exact hs

lemma foldl_bestStep_inv (mask w : Mat ℕ) (B S : ℕ) (L : List (ℕ × ℕ)) :
    ∀ (l : List (ℕ × ℕ)), (∀ x ∈ l, x ∈ L) →
    ∀ (s : Option (List ℕ × ℕ)),
      (s = none ∨ ∃ c r, (c, r) ∈ L ∧ windowMaskSum mask B S (c, r) = S * S ∧
        s = some (mkRegion B S c r, windowWeight w B S (c, r))) →
      (l.foldl (bestStep mask w B S) s = none ∨
        ∃ c r, (c, r) ∈ L ∧ windowMaskSum mask B S (c, r) = S * S ∧
          l.foldl (bestStep mask w B S) s
            = some (mkRegion B S c r, windowWeight w B S (c, r))) := by
  intro l
  induction l with
  | nil => exact fun _ s hs => hs
  | cons a l ih =>
    intro hmem s hs
    simp only [List.foldl_cons]
    exact ih (fun x hx => hmem x (List.mem_cons_of_mem a hx)) _
      (bestStep_preserve mask w B S L a (hmem a (List.mem_cons_self a l)) s hs)

lemma foldl_bestStep_none (mask w : Mat ℕ) (B S : ℕ) :
    ∀ (l : List (ℕ × ℕ)),
      (∀ x ∈ l, windowMaskSum mask B S x ≠ S * S) →
      l.foldl (bestStep mask w B S) none = none := by
  intro l
  induction l with
  | nil => exact fun _ => rfl
  | cons a l ih =>
    intro h
    simp only [List.foldl_cons]
    rw [show bestStep mask w B S none a = none from by
      unfold bestStep
      rw [if_neg (h a (List.mem_cons_self a l))]]
    exact ih (fun x hx => h x (List.mem_cons_of_mem a hx))

lemma getBestRegion_some_char (thinImage w mask : Mat ℕ) (B : ℕ) (reg : List ℕ)
    (h : getBestRegion thinImage w B mask = some reg) :
    ∃ c r, (c, r) ∈ scanCandidates thinImage.length
        (thinImage.headD []).length (B * 8 / B - 1) ∧
      windowMaskSum mask B (B * 8) (c, r) = (B * 8) * (B * 8) ∧
      reg = mkRegion B (B * 8) c r := by
  have hinv := foldl_bestStep_inv mask w B (B * 8)
    (scanCandidates thinImage.length (thinImage.headD []).length (B * 8 / B - 1))
    (scanCandidates thinImage.length (thinImage.headD []).length (B * 8 / B - 1))
    (fun x hx => hx) none (Or.inl rfl)
  rcases hinv with hnone | ⟨c, r, hm, hacc, heq⟩
  · rw [getBestRegion_eq_foldl, hnone] at h
    simp at h
  · rw [getBestRegion_eq_foldl, heq] at h
    simp only [Option.map_some'] at h
    exact ⟨c, r, hm, hacc, (Option.some.inj h).symm⟩

/-! ## Slice-sum bounds for 0/1 masks -/

lemma sum_le_length_of_le_one (l : List ℕ) (h : ∀ x ∈ l, x ≤ 1) :
    l.sum ≤ l.length := by
  induction l with
  | nil => simp
  | cons a t ih =>
    simp only [List.sum_cons, List.length_cons]
    have h1 := h a (List.mem_cons_self a t)
    have h2 := ih (fun x hx => h x (List.mem_cons_of_mem a hx))
    omega

lemma sliceSumN_le_bound (m : Mat ℕ) (a b S bound : ℕ)
    (hrow : ∀ row ∈ m, ((row.drop b).take (b + S - b)).sum ≤ bound) :
    sliceSumN m a (a + S) b (b + S) ≤ min S (m.length - a) * bound := by
  unfold sliceSumN slice2
  rw [List.map_map]
  have hle := List.sum_le_card_nsmul
    (((m.drop a).take (a + S - a)).map
      (fun row => List.sum ((row.drop b).take (b + S - b)))) bound ?_
  · rw [List.length_map, List.length_take, List.length_drop] at hle
    have haS : a + S - a = S := by omega
    rw [haS] at hle
    simpa using hle
  · intro x hx
    obtain ⟨row, hrowmem, rfl⟩ := List.mem_map.1 hx
    exact hrow row (List.drop_subset a m (List.take_subset _ _ hrowmem))

lemma sliceSumN_full (m : Mat ℕ) (cols a b S : ℕ) (hS : 1 ≤ S)
    (hmc : ∀ row ∈ m, row.length = cols)
    (hbin : ∀ row ∈ m, ∀ v ∈ row, v ≤ 1)
    (h : sliceSumN m a (a + S) b (b + S) = S * S) :
    a + S ≤ m.length ∧ b + S ≤ cols := by
  have hrow : ∀ row ∈ m, ((row.drop b).take (b + S - b)).sum ≤ min S (cols - b) := by
    intro row hr
    have h1 : ((row.drop b).take (b + S - b)).sum ≤ ((row.drop b).take (b + S - b)).length :=
      sum_le_length_of_le_one _ (fun v hv =>
        hbin row hr v (List.drop_subset _ _ (List.take_subset _ _ hv)))
    have hlen1 : ((row.drop b).take (b + S - b)).length ≤ b + S - b := by
      rw [List.length_take]
      exact Nat.min_le_left _ _
    have hlen2 : ((row.drop b).take (b + S - b)).length ≤ cols - b := by
      rw [List.length_take, List.length_drop, hmc row hr]
      exact Nat.min_le_right _ _
    exact Nat.le_min.2 ⟨by omega, by omega⟩
  have hA := sliceSumN_le_bound m a b S (min S (cols - b)) hrow
  rw [h] at hA
  have hx0 : min S (m.length - a) ≤ S := Nat.min_le_left _ _
  have hy0 : min S (cols - b) ≤ S := Nat.min_le_left _ _
  have hx : S ≤ min S (m.length - a) := by
    by_contra hlt
    push_neg at hlt
    have h1 : min S (m.length - a) * min S (cols - b)
        ≤ min S (m.length - a) * S := Nat.mul_le_mul_left _ hy0
    have h2 : min S (m.length - a) * S < S * S :=
      (Nat.mul_lt_mul_right (by omega)).mpr hlt
    omega
  have hy : S ≤ min S (cols - b) := by
    by_contra hlt
    push_neg at hlt
    have h1 : min S (m.length - a) * min S (cols - b)
        ≤ S * min S (cols - b) := Nat.mul_le_mul_right _ hx0
    have h2 : S * min S (cols - b) < S * S :=
      (Nat.mul_lt_mul_left (by omega)).mpr hlt
    omega
  have hx' := Nat.min_le_right S (m.length - a)
  have hy' := Nat.min_le_right S (cols - b)
  omega

lemma sliceSumN_rows_clipped (m : Mat ℕ) (a b S : ℕ) (hS : 1 ≤ S)
    (hbin : ∀ row ∈ m, ∀ v ∈ row, v ≤ 1)
    (hclip : m.length < a + S) :
    sliceSumN m a (a + S) b (b + S) < S * S := by
  have hrow : ∀ row ∈ m, ((row.drop b).take (b + S - b)).sum ≤ S := by
    intro row hr
    have h1 : ((row.drop b).take (b + S - b)).sum ≤ ((row.drop b).take (b + S - b)).length :=
      sum_le_length_of_le_one _ (fun v hv =>
        hbin row hr v (List.drop_subset _ _ (List.take_subset _ _ hv)))
    have h2 : ((row.drop b).take (b + S - b)).length ≤ b + S - b := by
      rw [List.length_take]
      exact Nat.min_le_left _ _
    omega
  have hA := sliceSumN_le_bound m a b S S hrow
  have h3 : min S (m.length - a) < S := by
    have := Nat.min_le_right S (m.length - a)
    omega
  have h4 : min S (m.length - a) * S < S * S :=
    (Nat.mul_lt_mul_right (by omega)).mpr h3
  omega

/-! ## Claim C2: full validity of any returned region; `None` otherwise -/

/-- Claim C2: if `__get_best_region` returns a region, the sum of the mask
over that region's footprint is exactly `S*S` (`S = 8*block_size`, every
footprint pixel valid); if no candidate window's mask footprint sums to
`S*S`, it returns `None` — never a partially valid region. -/
theorem claim_C2 (thinImage w mask : Mat ℕ) (B : ℕ) :
    (∀ reg, getBestRegion thinImage w B mask = some reg →
      sliceSumN mask (reg.getD 0 0) (reg.getD 1 0) (reg.getD 2 0) (reg.getD 3 0)
        = (B * 8) * (B * 8)) ∧
    ((∀ p ∈ scanCandidates thinImage.length (thinImage.headD []).length (B * 8 / B - 1),
        windowMaskSum mask B (B * 8) p ≠ (B * 8) * (B * 8)) →
      getBestRegion thinImage w B mask = none) := by
  constructor
  · intro reg h
    obtain ⟨c, r, _, hacc, rfl⟩ := getBestRegion_some_char thinImage w mask B reg h
    simpa [mkRegion, windowMaskSum] using hacc
  · intro h
    rw [getBestRegion_eq_foldl, foldl_bestStep_none mask w B (B * 8) _ h]
    rfl

theorem claim_C2_witness :
    sliceSumN (fullMask 10 10) (([2, 10, 2, 10] : List ℕ).getD 0 0)
        (([2, 10, 2, 10] : List ℕ).getD 1 0) (([2, 10, 2, 10] : List ℕ).getD 2 0)
        (([2, 10, 2, 10] : List ℕ).getD 3 0) = (1 * 8) * (1 * 8) ∧
    getBestRegion (bgImage 10 10) (zeroWeights 10 10) 1 (zeroWeights 10 10) = none :=
  ⟨(claim_C2 (bgImage 10 10) (zeroWeights 10 10) (fullMask 10 10) 1).1
      [2, 10, 2, 10] (by decide),
   (claim_C2 (bgImage 10 10) (zeroWeights 10 10) (zeroWeights 10 10) 1).2 (by decide)⟩

/-! ## Claim C10: returned regions are exact in-bounds S x S squares -/

/-- Claim C10: for a 0/1 validity mask of the image's shape, any region
`[a, b, c, d]` the selector returns satisfies `b - a = d - c = 8 * B` and
lies inside the image (`b ≤ rows`, `d ≤ cols`): the loops do enumerate
origins whose window would overrun the edge, but such a window's clipped
mask slice sums to strictly less than `S*S` and is rejected. -/
theorem claim_C10 (thinImage w mask : Mat ℕ) (B rows cols : ℕ) (hB : 1 ≤ B)
    (_htr : thinImage.length = rows) (_htc : (thinImage.headD []).length = cols)
    (hmr : mask.length = rows) (hmc : ∀ row ∈ mask, row.length = cols)
    (hbin : ∀ row ∈ mask, ∀ v ∈ row, v = 0 ∨ v = 1) :
    ∀ reg, getBestRegion thinImage w B mask = some reg →
      reg.getD 1 0 - reg.getD 0 0 = B * 8 ∧
      reg.getD 3 0 - reg.getD 2 0 = B * 8 ∧
      reg.getD 1 0 ≤ rows ∧ reg.getD 3 0 ≤ cols := by
  intro reg h
  obtain ⟨c, r, _, hacc, rfl⟩ := getBestRegion_some_char thinImage w mask B reg h
  have hbin' : ∀ row ∈ mask, ∀ v ∈ row, v ≤ 1 := fun row hrow v hv => by
    rcases hbin row hrow v hv with h' | h' <;> omega
  have hS : 1 ≤ B * 8 := by omega
  unfold windowMaskSum at hacc
  have hfull := sliceSumN_full mask cols (c * B) (r * B) (B * 8) hS hmc hbin' hacc
  refine ⟨by simp [mkRegion], by simp [mkRegion], ?_, ?_⟩
  · have h1 : (mkRegion B (B * 8) c r).getD 1 0 = c * B + B * 8 := by simp [mkRegion]
    rw [h1, ← hmr]
    exact hfull.1
  · have h3 : (mkRegion B (B * 8) c r).getD 3 0 = r * B + B * 8 := by simp [mkRegion]
    rw [h3]
    exact hfull.2

theorem claim_C10_witness :
    ([8, 16, 8, 16] : List ℕ).getD 1 0 - ([8, 16, 8, 16] : List ℕ).getD 0 0 = 1 * 8 ∧
    ([8, 16, 8, 16] : List ℕ).getD 3 0 - ([8, 16, 8, 16] : List ℕ).getD 2 0 = 1 * 8 ∧
    ([8, 16, 8, 16] : List ℕ).getD 1 0 ≤ 16 ∧ ([8, 16, 8, 16] : List ℕ).getD 3 0 ≤ 16 :=
  claim_C10 (bgImage 16 16) (zeroWeights 16 16) (fullMask 16 16) 1 16 16
    (by decide) (by decide) (by decide) (by decide) (by decide) (by decide)
    [8, 16, 8, 16] (by decide)

/-! ## Claim C5: the enumeration grid of `__get_best_region` -/

/-- Claim C5 counterexample: with `block_size = 2` on a 22x18 all-valid
input the selector returns the region `[6, 22, 2, 18]`, whose column block
index is `6 / 2 = 3` — outside the range `1 .. cols/B - window_span =
1 .. 18/2 - 7 = 1 .. 2` that the claim says bounds the enumeration.  The
loop bounds of `__get_best_region` are `range(1, cols - window)` in raw
pixel counts, not divided by the block size. -/
theorem claim_C5_counterexample :
    getBestRegion (bgImage 22 18) (zeroWeights 22 18) 2 (fullMask 22 18)
      = some [6, 22, 2, 18] ∧ ¬((6 : ℕ) / 2 ≤ 18 / 2 - 7) := by decide

/-- Claim C5 as amended: the window span is `S/B - 1 = 7`; the outer loop
runs over column block indices `c` with `1 ≤ c < 1 + (cols - 7 - 1)` and
the inner loop over row block indices `r` with `1 ≤ r < 1 + (rows - 7 - 1)`
— both bounds in raw pixel counts, NOT divided by `B` as the claim stated
— and each candidate window's bounds are `[c*B, c*B + S)` along one axis
and `[r*B, r*B + S)` along the other; no returned region originates
outside these ranges. -/
theorem claim_C5 (thinImage w mask : Mat ℕ) (B : ℕ) (hB : 1 ≤ B) :
    (B * 8 / B - 1 = 7) ∧
    ∀ reg, getBestRegion thinImage w B mask = some reg →
      ∃ c r, 1 ≤ c ∧ c < 1 + ((thinImage.headD []).length - 7 - 1) ∧
        1 ≤ r ∧ r < 1 + (thinImage.length - 7 - 1) ∧
        reg = [c * B, c * B + B * 8, r * B, r * B + B * 8] := by
  have h7 : B * 8 / B - 1 = 7 := by
    rw [Nat.mul_div_cancel_left 8 (by omega : 0 < B)]
  refine ⟨h7, ?_⟩
  intro reg h
  obtain ⟨c, r, hm, _, rfl⟩ := getBestRegion_some_char thinImage w mask B reg h
  rw [h7] at hm
  have hb := mem_scanCandidates hm
  exact ⟨c, r, hb.1, hb.2.1, hb.2.2.1, hb.2.2.2, rfl⟩

theorem claim_C5_witness :
    ∃ c r, 1 ≤ c ∧ c < 1 + (((bgImage 22 18).headD []).length - 7 - 1) ∧
      1 ≤ r ∧ r < 1 + ((bgImage 22 18).length - 7 - 1) ∧
      ([6, 22, 2, 18] : List ℕ) = [c * 2, c * 2 + 2 * 8, r * 2, r * 2 + 2 * 8] :=
  (claim_C5 (bgImage 22 18) (zeroWeights 22 18) (fullMask 22 18) 2 (by decide)).2
    [6, 22, 2, 18] (by decide)

/-! ## Claim C9: no fail-fast on shape mismatch -/

/-- Claim C9 counterexample: the skeleton and weight image are 16x16 but
the mask is 32x32 — the shapes do not all agree — yet `__get_best_region`
does not surface any error: it silently scans (Python raises nothing; the
embedding is total exactly as the source's slicing is) and returns the
region `[8, 16, 8, 16]`, the very thing the claim says cannot happen. -/
theorem claim_C9_counterexample :
    (fullMask 32 32).length ≠ (bgImage 16 16).length ∧
    getBestRegion (bgImage 16 16) (zeroWeights 16 16) 1 (fullMask 32 32)
      = some [8, 16, 8, 16] := by decide

/-- Claim C9 as amended: the core performs no shape-agreement check and
never surfaces a mismatch; the scan always proceeds on NumPy-clipped
slices.  With an oversized mask it can silently return a region (see the
counterexample); with an undersized 0/1 mask — too few mask rows for even
the first candidate's footprint, `mask.length < B + 8*B` — every window
fails the full-validity test and the selector silently returns the absent
value, indistinguishable from an ordinary "no region found". -/
theorem claim_C9 (thinImage w mask : Mat ℕ) (B : ℕ) (hB : 1 ≤ B)
    (hbin : ∀ row ∈ mask, ∀ v ∈ row, v ≤ 1)
    (hsmall : mask.length < B + B * 8) :
    getBestRegion thinImage w B mask = none := by
  rw [getBestRegion_eq_foldl, foldl_bestStep_none mask w B (B * 8) _ ?_]
  · rfl
  intro p hp hacc
  have h1 := (mem_scanCandidates hp).1
  have hc : B ≤ p.1 * B := by
    calc B = 1 * B := by omega
    _ ≤ p.1 * B := Nat.mul_le_mul_right B h1
  have hlt := sliceSumN_rows_clipped mask (p.1 * B) (p.2 * B) (B * 8)
    (by omega) hbin (by omega)
  unfold windowMaskSum at hacc
  omega

theorem claim_C9_witness :
    getBestRegion (bgImage 16 16) (zeroWeights 16 16) 1 (fullMask 8 8) = none :=
  claim_C9 (bgImage 16 16) (zeroWeights 16 16) (fullMask 8 8) 1
    (by decide) (by decide) (by decide)

/-! ## Claim C3: last tie in scan order wins -/

lemma foldl_bestStep_min_bound (mask w : Mat ℕ) (B S wq : ℕ) :
    ∀ (l : List (ℕ × ℕ)) (s : Option (List ℕ × ℕ)),
      (∀ x ∈ l, windowMaskSum mask B S x = S * S → wq ≤ windowWeight w B S x) →
      (s = none ∨ ∃ pr, s = some pr ∧ wq ≤ pr.2) →
      (l.foldl (bestStep mask w B S) s = none ∨
        ∃ pr, l.foldl (bestStep mask w B S) s = some pr ∧ wq ≤ pr.2) := by
  intro l
  induction l with
  | nil => exact fun s _ hs => hs
  | cons a l ih =>
    intro s hmem hs
    simp only [List.foldl_cons]
    apply ih _ (fun x hx h => hmem x (List.mem_cons_of_mem a hx) h)
    unfold bestStep
    by_cases hacc : windowMaskSum mask B S a = S * S
    · rw [if_pos hacc]
      have hwa : wq ≤ windowWeight w B S a :=
        hmem a (List.mem_cons_self a l) hacc
      cases s with
      | none => exact Or.inr ⟨_, rfl, hwa⟩
      | some pr =>
        obtain ⟨best, bw⟩ := pr
        dsimp only
        by_cases hle : windowWeight w B S a ≤ bw
        · rw [if_pos hle]
          exact Or.inr ⟨_, rfl, hwa⟩
        · rw [if_neg hle]
          rcases hs with hn | ⟨pr', hpr', hwq⟩
          · exact absurd hn (by simp)
          · obtain rfl : pr' = (best, bw) := (Option.some.inj hpr').symm
            exact Or.inr ⟨(best, bw), rfl, hwq⟩
    · rw [if_neg hacc]
      exact hs

lemma foldl_bestStep_frozen (mask w : Mat ℕ) (B S : ℕ) (reg : List ℕ) (wq : ℕ) :
    ∀ (l : List (ℕ × ℕ)),
      (∀ x ∈ l, windowMaskSum mask B S x = S * S → wq < windowWeight w B S x) →
      l.foldl (bestStep mask w B S) (some (reg, wq)) = some (reg, wq) := by
  intro l
  induction l with
  | nil => exact fun _ => rfl
  | cons a l ih =>
    intro h
    simp only [List.foldl_cons]
    have hstep : bestStep mask w B S (some (reg, wq)) a = some (reg, wq) := by
      unfold bestStep
      by_cases hacc : windowMaskSum mask B S a = S * S
      · rw [if_pos hacc]
        dsimp only
        rw [if_neg (by have := h a (List.mem_cons_self a l) hacc; omega)]
      · rw [if_neg hacc]
    rw [hstep]
    exact ih (fun x hx hacc => h x (List.mem_cons_of_mem a hx) hacc)

/-- Claim C3: among accepted (fully mask-valid) windows, the running
minimum is updated with a ≤ comparison, so when an accepted window `p`
scanned earlier ties on total weight with an accepted window `q` scanned
later (scan order: column block index outer, row block index inner), and
`q`'s weight is minimal with every accepted window after `q` strictly
heavier, the selector returns `q`'s region — the later-scanned window, not
the first. -/
theorem claim_C3 (thinImage w mask : Mat ℕ) (B : ℕ)
    (l l2 : List (ℕ × ℕ)) (p q : ℕ × ℕ)
    (hscan : scanCandidates thinImage.length (thinImage.headD []).length (B * 8 / B - 1)
      = l ++ q :: l2)
    (hqacc : windowMaskSum mask B (B * 8) q = (B * 8) * (B * 8))
    (_hpmem : p ∈ l)
    (_hpacc : windowMaskSum mask B (B * 8) p = (B * 8) * (B * 8))
    (_hpw : windowWeight w B (B * 8) p = windowWeight w B (B * 8) q)
    (hmin : ∀ x ∈ l, windowMaskSum mask B (B * 8) x = (B * 8) * (B * 8) →
      windowWeight w B (B * 8) q ≤ windowWeight w B (B * 8) x)
    (hafter : ∀ x ∈ l2, windowMaskSum mask B (B * 8) x = (B * 8) * (B * 8) →
      windowWeight w B (B * 8) q < windowWeight w B (B * 8) x) :
    getBestRegion thinImage w B mask = some (mkRegion B (B * 8) q.1 q.2) := by
  rw [getBestRegion_eq_foldl, hscan, List.foldl_append]
  simp only [List.foldl_cons]
  have hl := foldl_bestStep_min_bound mask w B (B * 8) (windowWeight w B (B * 8) q)
    l none hmin (Or.inl rfl)
  have hq : bestStep mask w B (B * 8) (l.foldl (bestStep mask w B (B * 8)) none) q
      = some (mkRegion B (B * 8) q.1 q.2, windowWeight w B (B * 8) q) := by
    rcases hl with hn | ⟨pr, hpr, hwq⟩
    · rw [hn]
      unfold bestStep
      rw [if_pos hqacc]
    · rw [hpr]
      obtain ⟨best, bw⟩ := pr
      unfold bestStep
      rw [if_pos hqacc]
      dsimp only
      rw [if_pos hwq]
  rw [hq, foldl_bestStep_frozen mask w B (B * 8) _ _ l2 hafter]
  rfl

theorem claim_C3_witness :
    getBestRegion (bgImage 10 10) (zeroWeights 10 10) 1 (fullMask 10 10)
      = some (mkRegion 1 (1 * 8) 2 2) :=
  claim_C3 (bgImage 10 10) (zeroWeights 10 10) (fullMask 10 10) 1
    [(1, 1), (1, 2), (2, 1)] [] (1, 1) (2, 2)
    (by decide) (by decide) (by decide) (by decide) (by decide)
    (by decide) (by decide)

/-! ## Claim C6: the 32x32 all-background end-to-end scenario -/

/-- Claim C6 counterexample: for the 32x32 all-background skeleton, the
full-validity mask and block_size = 1, the first scanned candidate is
(1, 1) and its window [1, 9, 1, 9] is fully mask-valid, yet the selector
does NOT return it: the ≤ update of the running minimum makes the last
tying window win, so the claim's "first scanned fully-valid window" fails
on the code. -/
theorem claim_C6_counterexample :
    (scanCandidates 32 32 7).head? = some (1, 1) ∧
    windowMaskSum (fullMask 32 32) 1 (1 * 8) (1, 1) = (1 * 8) * (1 * 8) ∧
    getBestRegion (bgImage 32 32) (calculateMinutiaeWeights (bgImage 32 32)) 1
      (fullMask 32 32) ≠ some [1, 9, 1, 9] := by
  have hw : calculateMinutiaeWeights (bgImage 32 32) = zeroWeights 32 32 := by decide
  refine ⟨by decide, by decide, ?_⟩
  rw [hw]
  decide

/-- Claim C6 as amended: the 32x32 all-background skeleton (all 255) with
a full-validity mask and block_size = 1 (S = 8) yields an all-zero weight
image, a selected region at the LAST scanned fully-valid window — the
candidate (24, 24), region [24, 32, 24, 32], since every window ties at
weight 0 and ≤ keeps updating — and a DiagonalResult (0, secondary)
because both diagonal counts are 0 and ties resolve to secondary. -/
theorem claim_C6 :
    calculateMinutiaeWeights (bgImage 32 32) = zeroWeights 32 32 ∧
    getBestRegion (bgImage 32 32) (calculateMinutiaeWeights (bgImage 32 32)) 1
      (fullMask 32 32) = some [24, 32, 24, 32] ∧
    (scanCandidates 32 32 7).getLast? = some (24, 24) ∧
    mkRegion 1 (1 * 8) 24 24 = [24, 32, 24, 32] ∧
    countLines (slice2 (bgImage 32 32) 24 32 24 32) = (0, LineType.secondary_diagonal) := by
  have hw : calculateMinutiaeWeights (bgImage 32 32) = zeroWeights 32 32 := by decide
  refine ⟨hw, ?_, by decide, by decide, by decide⟩
  rw [hw]
  decide
